import Mathlib

/-!
Verification of the Markowitz portfolio optimizer in `markowitz.py`.

The engine is `markowitz_opt(target, mu, cov)` (lines 35-66 of the source),
which inverts the covariance matrix, forms the scalars
`A = 1ᵀ Σ⁻¹ 1`, `B = 1ᵀ Σ⁻¹ μ`, `C = μᵀ Σ⁻¹ μ`, `D = A*C - B²`,
the Lagrange multipliers `λ = (C - B R)/D`, `γ = (A R - B)/D`,
the weights `w = Σ⁻¹ (λ 1 + γ μ)`, and returns the weights together with the
achieved return `w·μ` and the risk `sqrt(wᵀ Σ w)`.
The frontier sweep (lines 86-91) evaluates the same function at 100 evenly
spaced targets produced by `np.linspace`.

The shallow embedding works over `ℚ` (the numeric parts of the source are
exact rational formulas apart from the final square root, which is embedded
separately as `port_std` over `ℝ`).  The single failure point of the source
is `np.linalg.inv`, which raises `LinAlgError` exactly on a singular input;
it is embedded as an `Except` whose error branch fires exactly on
`det cov = 0`.  Division in the source is IEEE division, which does not
raise; accordingly the embedding is total in `D` (all claims concerning
nondegenerate markets carry the hypothesis `D ≠ 0`, under which `ℚ` division
agrees with the exact mathematical value).
-/

open Matrix

set_option linter.unusedVariables false

namespace Markowitz

/-- Line 51: `ones = np.ones(len(mu))`. -/
def ones (n : ℕ) : Fin n → ℚ := fun _ => 1

/-- Line 50: `inv_cov = np.linalg.inv(cov)`, written by the adjugate formula;
it agrees with the true inverse whenever `det cov ≠ 0`, which is exactly the
condition under which `np.linalg.inv` returns instead of raising. -/
def inv_cov {n : ℕ} (cov : Matrix (Fin n) (Fin n) ℚ) : Matrix (Fin n) (Fin n) ℚ :=
  (cov.det)⁻¹ • cov.adjugate

/-- Line 52: `A = ones.T @ inv_cov @ ones`. -/
def A {n : ℕ} (mu : Fin n → ℚ) (cov : Matrix (Fin n) (Fin n) ℚ) : ℚ :=
  ones n ⬝ᵥ (inv_cov cov) *ᵥ ones n

/-- Line 53: `B = ones.T @ inv_cov @ mu`. -/
def B {n : ℕ} (mu : Fin n → ℚ) (cov : Matrix (Fin n) (Fin n) ℚ) : ℚ :=
  ones n ⬝ᵥ (inv_cov cov) *ᵥ mu

/-- Line 54: `C = mu.T @ inv_cov @ mu`. -/
def C {n : ℕ} (mu : Fin n → ℚ) (cov : Matrix (Fin n) (Fin n) ℚ) : ℚ :=
  mu ⬝ᵥ (inv_cov cov) *ᵥ mu

/-- Line 55: `D = A * C - B**2`. -/
def D {n : ℕ} (mu : Fin n → ℚ) (cov : Matrix (Fin n) (Fin n) ℚ) : ℚ :=
  A mu cov * C mu cov - B mu cov ^ 2

/-- Line 58: `lambda_ = (C - B * target) / D`. -/
def lambda_ {n : ℕ} (target : ℚ) (mu : Fin n → ℚ) (cov : Matrix (Fin n) (Fin n) ℚ) : ℚ :=
  (C mu cov - B mu cov * target) / D mu cov

/-- Line 59: `gamma = (A * target - B) / D`. -/
def gamma {n : ℕ} (target : ℚ) (mu : Fin n → ℚ) (cov : Matrix (Fin n) (Fin n) ℚ) : ℚ :=
  (A mu cov * target - B mu cov) / D mu cov

/-- Line 60: `weights = inv_cov @ (lambda_ * ones + gamma * mu)`. -/
def weights {n : ℕ} (target : ℚ) (mu : Fin n → ℚ) (cov : Matrix (Fin n) (Fin n) ℚ) :
    Fin n → ℚ :=
  (inv_cov cov) *ᵥ (lambda_ target mu cov • ones n + gamma target mu cov • mu)

/-- Line 63: `port_return = weights @ mu`. -/
def port_return {n : ℕ} (target : ℚ) (mu : Fin n → ℚ) (cov : Matrix (Fin n) (Fin n) ℚ) : ℚ :=
  weights target mu cov ⬝ᵥ mu

/-- Line 64: `port_variance = weights.T @ cov @ weights`. -/
def port_variance {n : ℕ} (target : ℚ) (mu : Fin n → ℚ) (cov : Matrix (Fin n) (Fin n) ℚ) : ℚ :=
  weights target mu cov ⬝ᵥ cov *ᵥ weights target mu cov

/-- The one runtime failure the source can produce: `np.linalg.inv` raises
`numpy.linalg.LinAlgError("Singular matrix")` when `cov` has no inverse. -/
inductive NumErr where
  | linAlgSingular : NumErr
deriving DecidableEq

/-- Lines 35-66: `markowitz_opt(target, mu, cov)` returning the tuple
`(weights, port_return, port_variance)`; the source's third component is
`port_std = sqrt(port_variance)`, kept as the rational variance here with the
square root factored out into `port_std`.  The error branch is exactly the
`LinAlgError` of `np.linalg.inv` on a singular `cov`. -/
def markowitz_opt {n : ℕ} (target : ℚ) (mu : Fin n → ℚ) (cov : Matrix (Fin n) (Fin n) ℚ) :
    Except NumErr ((Fin n → ℚ) × ℚ × ℚ) :=
  if cov.det = 0 then .error .linAlgSingular
  else .ok (weights target mu cov, port_return target mu cov, port_variance target mu cov)

/-- Weights component of a solver result (zero vector on the error branch). -/
def weights_of {n : ℕ} : Except NumErr ((Fin n → ℚ) × ℚ × ℚ) → (Fin n → ℚ)
  | .ok r => r.1
  | .error _ => 0

/-- Achieved-return component of a solver result (0 on the error branch). -/
def return_of {n : ℕ} : Except NumErr ((Fin n → ℚ) × ℚ × ℚ) → ℚ
  | .ok r => r.2.1
  | .error _ => 0

/-- Variance component of a solver result (0 on the error branch). -/
def variance_of {n : ℕ} : Except NumErr ((Fin n → ℚ) × ℚ × ℚ) → ℚ
  | .ok r => r.2.2
  | .error _ => 0

/-- Whether the solver returned normally. -/
def okB {n : ℕ} : Except NumErr ((Fin n → ℚ) × ℚ × ℚ) → Bool
  | .ok _ => true
  | .error _ => false

/-- Line 86: `np.linspace(r_min, r_max, k)`, the i-th sample
`r_min + i*(r_max-r_min)/(k-1)` (for `k = 1` numpy returns the single point
`r_min`, matched here by `ℚ` division by zero). -/
def frontier_returns (lo hi : ℚ) (k : ℕ) : Fin k → ℚ :=
  fun i => lo + (i : ℚ) * ((hi - lo) / ((k : ℚ) - 1))

/-- Lines 86-91: the frontier sweep, one `markowitz_opt` call per sample of
`frontier_returns`, generalized from the source's hardcoded
`(0.07, 0.16, 100)` to caller-supplied bounds and sample count. -/
def sweep {n : ℕ} (mu : Fin n → ℚ) (cov : Matrix (Fin n) (Fin n) ℚ) (lo hi : ℚ) (k : ℕ) :
    Fin k → Except NumErr ((Fin n → ℚ) × ℚ × ℚ) :=
  fun i => markowitz_opt (frontier_returns lo hi k i) mu cov

/-- Symmetric positive definiteness of the covariance matrix, as the spec
assumes of valid market models. -/
def SymPD {n : ℕ} (cov : Matrix (Fin n) (Fin n) ℚ) : Prop :=
  covᵀ = cov ∧ ∀ x : Fin n → ℚ, x ≠ 0 → 0 < x ⬝ᵥ cov *ᵥ x

/-- Modelled from the spec: the redesigned Market Model, an immutable container
holding `mu`, `cov` and, computed once at construction and reused for every
target, the cached inverse and the scalar aggregates `A, B, C, D`. -/
structure MarketModel (n : ℕ) where
  mu : Fin n → ℚ
  cov : Matrix (Fin n) (Fin n) ℚ
  inv_cov : Matrix (Fin n) (Fin n) ℚ
  A : ℚ
  B : ℚ
  C : ℚ
  D : ℚ

/-- Modelled from the spec: `Construct(mu, cov)`, caching `inv_cov` and the
aggregates once. -/
def mkModel {n : ℕ} (mu : Fin n → ℚ) (cov : Matrix (Fin n) (Fin n) ℚ) : MarketModel n :=
  ⟨mu, cov, inv_cov cov, A mu cov, B mu cov, C mu cov, D mu cov⟩

/-- Modelled from the spec: `Solve(model, R)` of the redesigned core, reading
`inv_cov, A, B, C, D` from the cache instead of recomputing them. -/
def solveCached {n : ℕ} (m : MarketModel n) (target : ℚ) :
    Except NumErr ((Fin n → ℚ) × ℚ × ℚ) :=
  if m.cov.det = 0 then .error .linAlgSingular
  else
    let l := (m.C - m.B * target) / m.D
    let g := (m.A * target - m.B) / m.D
    let w := m.inv_cov *ᵥ (l • ones n + g • m.mu)
    .ok (w, w ⬝ᵥ m.mu, w ⬝ᵥ m.cov *ᵥ w)

/-- Modelled from the spec: the redesigned sweep, one cached solve per sample. -/
def sweepCached {n : ℕ} (m : MarketModel n) (lo hi : ℚ) (k : ℕ) :
    Fin k → Except NumErr ((Fin n → ℚ) × ℚ × ℚ) :=
  fun i => solveCached m (frontier_returns lo hi k i)

/-! ### Basic algebraic facts about the embedded solver -/

theorem A_spec {n : ℕ} (mu : Fin n → ℚ) (cov : Matrix (Fin n) (Fin n) ℚ) :
    A mu cov = ones n ⬝ᵥ (inv_cov cov) *ᵥ ones n := rfl

theorem B_spec {n : ℕ} (mu : Fin n → ℚ) (cov : Matrix (Fin n) (Fin n) ℚ) :
    B mu cov = ones n ⬝ᵥ (inv_cov cov) *ᵥ mu := rfl

theorem C_spec {n : ℕ} (mu : Fin n → ℚ) (cov : Matrix (Fin n) (Fin n) ℚ) :
    C mu cov = mu ⬝ᵥ (inv_cov cov) *ᵥ mu := rfl

theorem D_spec {n : ℕ} (mu : Fin n → ℚ) (cov : Matrix (Fin n) (Fin n) ℚ) :
    D mu cov = A mu cov * C mu cov - B mu cov ^ 2 := rfl

theorem mul_inv_cov_eq_one {n : ℕ} {cov : Matrix (Fin n) (Fin n) ℚ} (h : cov.det ≠ 0) :
    cov * inv_cov cov = 1 := by
  rw [inv_cov, Matrix.mul_smul, Matrix.mul_adjugate, smul_smul, inv_mul_cancel₀ h, one_smul]

theorem cov_mulVec_inv_cov {n : ℕ} {cov : Matrix (Fin n) (Fin n) ℚ} (h : cov.det ≠ 0)
    (v : Fin n → ℚ) : cov *ᵥ ((inv_cov cov) *ᵥ v) = v := by
  rw [Matrix.mulVec_mulVec, mul_inv_cov_eq_one h, Matrix.one_mulVec]

theorem inv_cov_transpose {n : ℕ} {cov : Matrix (Fin n) (Fin n) ℚ} (hsym : covᵀ = cov) :
    (inv_cov cov)ᵀ = inv_cov cov := by
  rw [inv_cov, Matrix.transpose_smul, Matrix.adjugate_transpose, hsym]

theorem dot_symm_mulVec {n : ℕ} {M : Matrix (Fin n) (Fin n) ℚ} (hsym : Mᵀ = M)
    (x y : Fin n → ℚ) : x ⬝ᵥ M *ᵥ y = y ⬝ᵥ M *ᵥ x := by
  rw [Matrix.dotProduct_mulVec]
  conv_lhs => rw [← hsym]
  rw [Matrix.vecMul_transpose, Matrix.dotProduct_comm]

theorem weights_expand {n : ℕ} (t : ℚ) (mu : Fin n → ℚ) (cov : Matrix (Fin n) (Fin n) ℚ) :
    weights t mu cov =
      lambda_ t mu cov • ((inv_cov cov) *ᵥ ones n) + gamma t mu cov • ((inv_cov cov) *ᵥ mu) := by
  rw [weights, Matrix.mulVec_add, Matrix.mulVec_smul, Matrix.mulVec_smul]

theorem sum_eq_ones_dot {n : ℕ} (w : Fin n → ℚ) : (∑ i, w i) = ones n ⬝ᵥ w := by
  simp [ones, Matrix.dotProduct]

theorem ones_dot_weights {n : ℕ} {mu : Fin n → ℚ} {cov : Matrix (Fin n) (Fin n) ℚ}
    (hD : D mu cov ≠ 0) (t : ℚ) : ones n ⬝ᵥ weights t mu cov = 1 := by
  rw [weights_expand, Matrix.dotProduct_add, Matrix.dotProduct_smul, Matrix.dotProduct_smul,
    smul_eq_mul, smul_eq_mul, ← A_spec mu cov, ← B_spec mu cov]
  simp only [lambda_, gamma]
  rw [div_mul_eq_mul_div, div_mul_eq_mul_div, div_add_div_same, div_eq_one_iff_eq hD, D_spec]
  ring

theorem weights_dot_mu {n : ℕ} {mu : Fin n → ℚ} {cov : Matrix (Fin n) (Fin n) ℚ}
    (hsym : covᵀ = cov) (hD : D mu cov ≠ 0) (t : ℚ) : weights t mu cov ⬝ᵥ mu = t := by
  rw [weights_expand, Matrix.add_dotProduct, Matrix.smul_dotProduct, Matrix.smul_dotProduct,
    smul_eq_mul, smul_eq_mul, Matrix.dotProduct_comm ((inv_cov cov) *ᵥ ones n) mu,
    Matrix.dotProduct_comm ((inv_cov cov) *ᵥ mu) mu,
    dot_symm_mulVec (inv_cov_transpose hsym) mu (ones n), ← B_spec mu cov, ← C_spec mu cov]
  simp only [lambda_, gamma]
  rw [div_mul_eq_mul_div, div_mul_eq_mul_div, div_add_div_same, div_eq_iff hD, D_spec]
  ring

theorem cross_term {n : ℕ} {mu : Fin n → ℚ} {cov : Matrix (Fin n) (Fin n) ℚ}
    (hdet : cov.det ≠ 0) (t : ℚ) (w : Fin n → ℚ) (hw1 : ones n ⬝ᵥ w = 1) (hw2 : w ⬝ᵥ mu = t) :
    w ⬝ᵥ cov *ᵥ weights t mu cov = lambda_ t mu cov + gamma t mu cov * t := by
  rw [weights, cov_mulVec_inv_cov hdet, Matrix.dotProduct_add, Matrix.dotProduct_smul,
    Matrix.dotProduct_smul, smul_eq_mul, smul_eq_mul, Matrix.dotProduct_comm w (ones n), hw1, hw2]
  ring

theorem variance_formula {n : ℕ} {mu : Fin n → ℚ} {cov : Matrix (Fin n) (Fin n) ℚ}
    (hdet : cov.det ≠ 0) (hsym : covᵀ = cov) (hD : D mu cov ≠ 0) (t : ℚ) :
    port_variance t mu cov = (A mu cov * t ^ 2 - 2 * B mu cov * t + C mu cov) / D mu cov := by
  have h := cross_term hdet t (weights t mu cov) (ones_dot_weights hD t) (weights_dot_mu hsym hD t)
  rw [port_variance, h]
  simp only [lambda_, gamma]
  rw [div_mul_eq_mul_div, div_add_div_same, div_eq_div_iff hD hD]
  ring

/-! ### Consequences of symmetric positive definiteness -/

theorem det_ne_zero_of_sympd {n : ℕ} {cov : Matrix (Fin n) (Fin n) ℚ} (h : SymPD cov) :
    cov.det ≠ 0 := by
  intro hdet
  obtain ⟨v, hv, hmul⟩ := Matrix.exists_mulVec_eq_zero_iff.mpr hdet
  have hpos := h.2 v hv
  rw [hmul, Matrix.dotProduct_zero] at hpos
  exact lt_irrefl 0 hpos

theorem inv_cov_pd {n : ℕ} {cov : Matrix (Fin n) (Fin n) ℚ} (h : SymPD cov)
    (x : Fin n → ℚ) (hx : x ≠ 0) : 0 < x ⬝ᵥ (inv_cov cov) *ᵥ x := by
  have hdet := det_ne_zero_of_sympd h
  set y := (inv_cov cov) *ᵥ x with hy
  have hcy : cov *ᵥ y = x := cov_mulVec_inv_cov hdet x
  have hyne : y ≠ 0 := by
    intro h0
    apply hx
    rw [← hcy, h0, Matrix.mulVec_zero]
  have hpos := h.2 y hyne
  calc (0 : ℚ) < y ⬝ᵥ cov *ᵥ y := hpos
    _ = (cov *ᵥ y) ⬝ᵥ y := Matrix.dotProduct_comm _ _
    _ = x ⬝ᵥ y := by rw [hcy]

theorem dim_ne_zero_of_D {n : ℕ} {mu : Fin n → ℚ} {cov : Matrix (Fin n) (Fin n) ℚ}
    (hD : D mu cov ≠ 0) : n ≠ 0 := by
  intro h
  apply hD
  subst h
  simp [D_spec, A_spec, B_spec, C_spec, Matrix.dotProduct]

theorem ones_ne_zero {n : ℕ} (h : n ≠ 0) : ones n ≠ (0 : Fin n → ℚ) := by
  intro h0
  have h1 : ones n ⟨0, Nat.pos_of_ne_zero h⟩ = 0 := by rw [h0]; rfl
  simp [ones] at h1

theorem A_pos {n : ℕ} (mu : Fin n → ℚ) {cov : Matrix (Fin n) (Fin n) ℚ} (h : SymPD cov)
    (hn : n ≠ 0) : 0 < A mu cov :=
  inv_cov_pd h (ones n) (ones_ne_zero hn)

theorem inv_quad_expand {n : ℕ} (mu : Fin n → ℚ) {cov : Matrix (Fin n) (Fin n) ℚ}
    (hsym : covᵀ = cov) (t0 : ℚ) :
    (mu - t0 • ones n) ⬝ᵥ (inv_cov cov) *ᵥ (mu - t0 • ones n) =
      C mu cov - 2 * t0 * B mu cov + t0 ^ 2 * A mu cov := by
  rw [Matrix.sub_dotProduct, Matrix.mulVec_sub, Matrix.mulVec_smul,
    Matrix.dotProduct_sub, Matrix.dotProduct_sub, Matrix.smul_dotProduct, Matrix.smul_dotProduct,
    Matrix.dotProduct_smul, Matrix.dotProduct_smul, smul_eq_mul, smul_eq_mul, smul_eq_mul,
    dot_symm_mulVec (inv_cov_transpose hsym) mu (ones n),
    ← A_spec mu cov, ← B_spec mu cov, ← C_spec mu cov]
  simp only [smul_eq_mul]
  ring

theorem D_pos {n : ℕ} {mu : Fin n → ℚ} {cov : Matrix (Fin n) (Fin n) ℚ} (h : SymPD cov)
    (hD : D mu cov ≠ 0) : 0 < D mu cov := by
  have hn := dim_ne_zero_of_D hD
  have hA := A_pos mu h hn
  have hAne : A mu cov ≠ 0 := ne_of_gt hA
  have hquad := inv_quad_expand mu h.1 (B mu cov / A mu cov)
  have hval : C mu cov - 2 * (B mu cov / A mu cov) * B mu cov +
      (B mu cov / A mu cov) ^ 2 * A mu cov = D mu cov / A mu cov := by
    rw [D_spec]
    field_simp
    ring
  rw [hval] at hquad
  rcases eq_or_ne (mu - (B mu cov / A mu cov) • ones n) 0 with hz | hz
  · exfalso
    apply hD
    rw [hz, Matrix.zero_dotProduct] at hquad
    have : D mu cov = 0 * A mu cov := by
      rw [← div_eq_iff hAne, ← hquad]
    rwa [zero_mul] at this
  · have hpos := inv_cov_pd h _ hz
    rw [hquad] at hpos
    have := mul_pos hpos hA
    rwa [div_mul_cancel₀ _ hAne] at this

/-! ### Minimality of the closed-form weights -/

theorem sub_quad_expand {n : ℕ} {M : Matrix (Fin n) (Fin n) ℚ} (hsym : Mᵀ = M)
    (x y : Fin n → ℚ) :
    (x - y) ⬝ᵥ M *ᵥ (x - y) =
      x ⬝ᵥ M *ᵥ x - 2 * (x ⬝ᵥ M *ᵥ y) + y ⬝ᵥ M *ᵥ y := by
  rw [Matrix.sub_dotProduct, Matrix.mulVec_sub, Matrix.dotProduct_sub, Matrix.dotProduct_sub,
    dot_symm_mulVec hsym y x]
  ring

theorem variance_le_of_feasible {n : ℕ} {mu : Fin n → ℚ} {cov : Matrix (Fin n) (Fin n) ℚ}
    (h : SymPD cov) (hD : D mu cov ≠ 0) (t : ℚ) (w : Fin n → ℚ)
    (hw1 : ones n ⬝ᵥ w = 1) (hw2 : w ⬝ᵥ mu = t) :
    port_variance t mu cov ≤ w ⬝ᵥ cov *ᵥ w ∧
      (w ≠ weights t mu cov → port_variance t mu cov < w ⬝ᵥ cov *ᵥ w) := by
  have hdet := det_ne_zero_of_sympd h
  have hcross : w ⬝ᵥ cov *ᵥ weights t mu cov = lambda_ t mu cov + gamma t mu cov * t :=
    cross_term hdet t w hw1 hw2
  have hself : weights t mu cov ⬝ᵥ cov *ᵥ weights t mu cov =
      lambda_ t mu cov + gamma t mu cov * t :=
    cross_term hdet t (weights t mu cov) (ones_dot_weights hD t) (weights_dot_mu h.1 hD t)
  have hpv : port_variance t mu cov = lambda_ t mu cov + gamma t mu cov * t := hself
  have hexp : (w - weights t mu cov) ⬝ᵥ cov *ᵥ (w - weights t mu cov) =
      w ⬝ᵥ cov *ᵥ w - port_variance t mu cov := by
    rw [sub_quad_expand h.1 w (weights t mu cov), hcross, hself, hpv]
    ring
  constructor
  · rcases eq_or_ne w (weights t mu cov) with he | hne
    · rw [he]
      exact le_of_eq (hpv.trans hself.symm)
    · have hz : w - weights t mu cov ≠ 0 := sub_ne_zero.mpr hne
      have hpos := h.2 _ hz
      rw [hexp] at hpos
      linarith
  · intro hne
    have hz : w - weights t mu cov ≠ 0 := sub_ne_zero.mpr hne
    have hpos := h.2 _ hz
    rw [hexp] at hpos
    linarith

theorem feasible_eq_weights_of_variance_eq {n : ℕ} {mu : Fin n → ℚ}
    {cov : Matrix (Fin n) (Fin n) ℚ} (h : SymPD cov) (hD : D mu cov ≠ 0) (t : ℚ)
    (w : Fin n → ℚ) (hw1 : ones n ⬝ᵥ w = 1) (hw2 : w ⬝ᵥ mu = t)
    (hv : w ⬝ᵥ cov *ᵥ w = port_variance t mu cov) : w = weights t mu cov := by
  by_contra hne
  have := (variance_le_of_feasible h hD t w hw1 hw2).2 hne
  rw [hv] at this
  exact lt_irrefl _ this

/-! ### Unfolding the solver's `Except` wrapper -/

theorem opt_ok {n : ℕ} {cov : Matrix (Fin n) (Fin n) ℚ} (h : cov.det ≠ 0) (t : ℚ)
    (mu : Fin n → ℚ) :
    markowitz_opt t mu cov =
      .ok (weights t mu cov, port_return t mu cov, port_variance t mu cov) := by
  rw [markowitz_opt, if_neg h]

theorem weights_of_opt {n : ℕ} {cov : Matrix (Fin n) (Fin n) ℚ} (h : cov.det ≠ 0) (t : ℚ)
    (mu : Fin n → ℚ) : weights_of (markowitz_opt t mu cov) = weights t mu cov := by
  rw [opt_ok h, weights_of]

theorem return_of_opt {n : ℕ} {cov : Matrix (Fin n) (Fin n) ℚ} (h : cov.det ≠ 0) (t : ℚ)
    (mu : Fin n → ℚ) : return_of (markowitz_opt t mu cov) = port_return t mu cov := by
  rw [opt_ok h, return_of]

theorem variance_of_opt {n : ℕ} {cov : Matrix (Fin n) (Fin n) ℚ} (h : cov.det ≠ 0) (t : ℚ)
    (mu : Fin n → ℚ) : variance_of (markowitz_opt t mu cov) = port_variance t mu cov := by
  rw [opt_ok h, variance_of]

theorem okB_opt {n : ℕ} {cov : Matrix (Fin n) (Fin n) ℚ} (h : cov.det ≠ 0) (t : ℚ)
    (mu : Fin n → ℚ) : okB (markowitz_opt t mu cov) = true := by
  rw [opt_ok h, okB]

theorem return_of_eq_target {n : ℕ} {mu : Fin n → ℚ} {cov : Matrix (Fin n) (Fin n) ℚ}
    (hsym : covᵀ = cov) (hdet : cov.det ≠ 0) (hD : D mu cov ≠ 0) (t : ℚ) :
    return_of (markowitz_opt t mu cov) = t := by
  rw [return_of_opt hdet, port_return, weights_dot_mu hsym hD t]

/-! ### Concrete instances used by the witnesses -/

theorem sympd_one {n : ℕ} : SymPD (1 : Matrix (Fin n) (Fin n) ℚ) := by
  constructor
  · exact Matrix.transpose_one
  · intro x hx
    rw [Matrix.one_mulVec]
    obtain ⟨i, hi⟩ := Function.ne_iff.mp hx
    have hterm : 0 < x i * x i := mul_self_pos.mpr hi
    have hsum : 0 < ∑ j, x j * x j :=
      Finset.sum_pos' (fun j _ => mul_self_nonneg (x j)) ⟨i, Finset.mem_univ i, hterm⟩
    exact hsum

theorem base_D_eval : D ![(1 : ℚ), 2] (1 : Matrix (Fin 2) (Fin 2) ℚ) = 1 := by
  simp [D_spec, A_spec, B_spec, C_spec, inv_cov, ones, Matrix.dotProduct, Fin.sum_univ_two]
  norm_num

theorem base_D_ne_zero : D ![(1 : ℚ), 2] (1 : Matrix (Fin 2) (Fin 2) ℚ) ≠ 0 := by
  rw [base_D_eval]
  norm_num

theorem degenerate_D_eval : D ![(1 : ℚ), 1] (1 : Matrix (Fin 2) (Fin 2) ℚ) = 0 := by
  simp [D_spec, A_spec, B_spec, C_spec, inv_cov, ones, Matrix.dotProduct, Fin.sum_univ_two]
  norm_num

theorem indefinite_det_eval : (!![1, 0; 0, -1] : Matrix (Fin 2) (Fin 2) ℚ).det = -1 := by
  simp [Matrix.det_fin_two_of]

theorem base_variance_eval :
    variance_of (markowitz_opt 1 ![(1 : ℚ), 2] (1 : Matrix (Fin 2) (Fin 2) ℚ)) = 1 := by
  rw [variance_of_opt (by simp) 1 ![(1 : ℚ), 2]]
  simp [port_variance, weights, lambda_, gamma, A_spec, B_spec, C_spec, D_spec, inv_cov, ones,
    Matrix.dotProduct, Matrix.mulVec, Fin.sum_univ_two]
  norm_num

theorem indefinite_variance_eval :
    variance_of (markowitz_opt 0 ![(1 : ℚ), 0] (!![1, 0; 0, -1] : Matrix (Fin 2) (Fin 2) ℚ)) =
      -1 := by
  rw [variance_of_opt (by rw [indefinite_det_eval]; norm_num) 0 ![(1 : ℚ), 0]]
  simp [port_variance, weights, lambda_, gamma, A_spec, B_spec, C_spec, D_spec, inv_cov, ones,
    Matrix.det_fin_two_of, Matrix.adjugate_fin_two, Matrix.dotProduct, Matrix.mulVec,
    Fin.sum_univ_two]
  norm_num

/-! ### Claim theorems -/

/-- C1: for every symmetric positive-definite covariance matrix, expected-return
vector of matching dimension with `D = A*C - B² ≠ 0`, and every target return,
the weight vector returned by `markowitz_opt` satisfies both constraints,
minimizes the portfolio variance `wᵗ·cov·w` over all weight vectors with
`sum w = 1` and `w·mu = R`, and is the unique such minimizer. -/
theorem solve_minimizes_variance_uniquely {n : ℕ} (t : ℚ) (mu : Fin n → ℚ)
    (cov : Matrix (Fin n) (Fin n) ℚ) (hpd : SymPD cov) (hD : D mu cov ≠ 0) :
    (∑ i, weights_of (markowitz_opt t mu cov) i) = 1 ∧
    weights_of (markowitz_opt t mu cov) ⬝ᵥ mu = t ∧
    (∀ w : Fin n → ℚ, (∑ i, w i) = 1 → w ⬝ᵥ mu = t →
      variance_of (markowitz_opt t mu cov) ≤ w ⬝ᵥ cov *ᵥ w) ∧
    (∀ w : Fin n → ℚ, (∑ i, w i) = 1 → w ⬝ᵥ mu = t →
      w ⬝ᵥ cov *ᵥ w = variance_of (markowitz_opt t mu cov) →
      w = weights_of (markowitz_opt t mu cov)) := by
  have hdet := det_ne_zero_of_sympd hpd
  rw [weights_of_opt hdet, variance_of_opt hdet]
  refine ⟨?_, weights_dot_mu hpd.1 hD t, ?_, ?_⟩
  · rw [sum_eq_ones_dot]
    exact ones_dot_weights hD t
  · intro w hw1 hw2
    rw [sum_eq_ones_dot] at hw1
    exact (variance_le_of_feasible hpd hD t w hw1 hw2).1
  · intro w hw1 hw2 hv
    rw [sum_eq_ones_dot] at hw1
    exact feasible_eq_weights_of_variance_eq hpd hD t w hw1 hw2 hv

/-- Witness for C1 at `mu = (1, 2)`, `cov = I₂`, `R = 1`. -/
theorem solve_minimizes_variance_uniquely_witness :
    (∑ i, weights_of (markowitz_opt 1 ![(1 : ℚ), 2] (1 : Matrix (Fin 2) (Fin 2) ℚ)) i) = 1 ∧
    weights_of (markowitz_opt 1 ![(1 : ℚ), 2] (1 : Matrix (Fin 2) (Fin 2) ℚ)) ⬝ᵥ ![(1 : ℚ), 2]
      = 1 :=
  ⟨(solve_minimizes_variance_uniquely 1 ![(1 : ℚ), 2] 1 sympd_one base_D_ne_zero).1,
   (solve_minimizes_variance_uniquely 1 ![(1 : ℚ), 2] 1 sympd_one base_D_ne_zero).2.1⟩

/-- C2: for every valid input (symmetric positive-definite covariance, matching
`mu`, `D ≠ 0`) and target, the weights returned by `markowitz_opt` sum to 1
(exactly, in rational arithmetic, hence within any tolerance). -/
theorem solve_budget_constraint {n : ℕ} (t : ℚ) (mu : Fin n → ℚ)
    (cov : Matrix (Fin n) (Fin n) ℚ) (hpd : SymPD cov) (hD : D mu cov ≠ 0) :
    (∑ i, weights_of (markowitz_opt t mu cov) i) = 1 := by
  rw [weights_of_opt (det_ne_zero_of_sympd hpd), sum_eq_ones_dot]
  exact ones_dot_weights hD t

/-- Witness for C2 at `mu = (1, 2)`, `cov = I₂`, `R = 2`. -/
theorem solve_budget_constraint_witness :
    (∑ i, weights_of (markowitz_opt 2 ![(1 : ℚ), 2] (1 : Matrix (Fin 2) (Fin 2) ℚ)) i) = 1 :=
  solve_budget_constraint 2 ![(1 : ℚ), 2] 1 sympd_one base_D_ne_zero

/-- C3: for every valid input and target `R`, the returned weights dotted with
`mu` equal `R`, and the returned expected-return component (computed as `w·mu`)
equals `R` (exactly, in rational arithmetic, hence within any tolerance). -/
theorem solve_return_constraint {n : ℕ} (t : ℚ) (mu : Fin n → ℚ)
    (cov : Matrix (Fin n) (Fin n) ℚ) (hpd : SymPD cov) (hD : D mu cov ≠ 0) :
    weights_of (markowitz_opt t mu cov) ⬝ᵥ mu = t ∧
    return_of (markowitz_opt t mu cov) = t := by
  have hdet := det_ne_zero_of_sympd hpd
  refine ⟨?_, return_of_eq_target hpd.1 hdet hD t⟩
  rw [weights_of_opt hdet]
  exact weights_dot_mu hpd.1 hD t

/-- Witness for C3 at `mu = (1, 2)`, `cov = I₂`, `R = 3`. -/
theorem solve_return_constraint_witness :
    return_of (markowitz_opt 3 ![(1 : ℚ), 2] (1 : Matrix (Fin 2) (Fin 2) ℚ)) = 3 :=
  (solve_return_constraint 3 ![(1 : ℚ), 2] 1 sympd_one base_D_ne_zero).2

/-- C4 counterexample: a market with `D = A*C - B² = 0` (constant `mu`, identity
covariance) on which `markowitz_opt` nevertheless returns normally, at two
different targets; no degenerate-market failure exists in the code. -/
theorem degenerate_market_no_error_cex :
    D ![(1 : ℚ), 1] (1 : Matrix (Fin 2) (Fin 2) ℚ) = 0 ∧
    okB (markowitz_opt 0 ![(1 : ℚ), 1] (1 : Matrix (Fin 2) (Fin 2) ℚ)) = true ∧
    okB (markowitz_opt 1 ![(1 : ℚ), 1] (1 : Matrix (Fin 2) (Fin 2) ℚ)) = true :=
  ⟨degenerate_D_eval, okB_opt (by simp) 0 ![(1 : ℚ), 1], okB_opt (by simp) 1 ![(1 : ℚ), 1]⟩

/-- C4 amended: `markowitz_opt` performs no degeneracy check on `D`: whether it
fails is independent of the target, and it returns normally whenever `cov` is
invertible, even when `D = 0` (the divisions by `D` are unguarded). -/
theorem no_degenerate_market_check {n : ℕ} (t : ℚ) (mu : Fin n → ℚ)
    (cov : Matrix (Fin n) (Fin n) ℚ) :
    (∀ s s' : ℚ, okB (markowitz_opt s mu cov) = okB (markowitz_opt s' mu cov)) ∧
    (cov.det ≠ 0 →
      markowitz_opt t mu cov =
        .ok (weights t mu cov, port_return t mu cov, port_variance t mu cov)) := by
  constructor
  · intro s s'
    by_cases h : cov.det = 0
    · rw [markowitz_opt, markowitz_opt, if_pos h, if_pos h]
    · rw [okB_opt h, okB_opt h]
  · intro h
    exact opt_ok h t mu

/-- Witness for C4's amended claim at the degenerate market `mu = (1, 1)`,
`cov = I₂` (where `D = 0` but the covariance is invertible). -/
theorem no_degenerate_market_check_witness :
    (1 : Matrix (Fin 2) (Fin 2) ℚ).det ≠ 0 ∧
    markowitz_opt 0 ![(1 : ℚ), 1] (1 : Matrix (Fin 2) (Fin 2) ℚ) =
      .ok (weights 0 ![(1 : ℚ), 1] 1, port_return 0 ![(1 : ℚ), 1] 1,
        port_variance 0 ![(1 : ℚ), 1] 1) :=
  ⟨by simp, (no_degenerate_market_check 0 ![(1 : ℚ), 1] 1).2 (by simp)⟩

/-- C6: the solver fails with the distinct singular-matrix error (the
`LinAlgError` of `np.linalg.inv`, the construction step of the market model)
exactly when `cov` is not invertible, and performs no other validation. -/
theorem singular_covariance_error_iff {n : ℕ} (t : ℚ) (mu : Fin n → ℚ)
    (cov : Matrix (Fin n) (Fin n) ℚ) :
    (cov.det = 0 → markowitz_opt t mu cov = .error .linAlgSingular) ∧
    (cov.det ≠ 0 → okB (markowitz_opt t mu cov) = true) := by
  constructor
  · intro h
    rw [markowitz_opt, if_pos h]
  · intro h
    exact okB_opt h t mu

/-- Witness for C6: a singular covariance (two identical asset rows) raises the
singular-matrix error, and an invertible one does not. -/
theorem singular_covariance_error_iff_witness :
    markowitz_opt 0 ![(1 : ℚ), 1] (!![1, 1; 1, 1] : Matrix (Fin 2) (Fin 2) ℚ) =
      .error .linAlgSingular ∧
    okB (markowitz_opt 0 ![(1 : ℚ), 1] (1 : Matrix (Fin 2) (Fin 2) ℚ)) = true :=
  ⟨(singular_covariance_error_iff 0 ![(1 : ℚ), 1] !![1, 1; 1, 1]).1
      (by simp [Matrix.det_fin_two_of]),
   (singular_covariance_error_iff 0 ![(1 : ℚ), 1] 1).2 (by simp)⟩

/-- C7 counterexample: with the invertible but indefinite covariance
`[[1,0],[0,-1]]` and `mu = (1,0)`, `markowitz_opt` at target 0 returns normally
with achieved variance `-1` (negative beyond any tolerance) instead of failing;
the code has no negative-variance check. -/
theorem negative_variance_still_returns_cex :
    okB (markowitz_opt 0 ![(1 : ℚ), 0] (!![1, 0; 0, -1] : Matrix (Fin 2) (Fin 2) ℚ)) = true ∧
    variance_of (markowitz_opt 0 ![(1 : ℚ), 0] (!![1, 0; 0, -1] : Matrix (Fin 2) (Fin 2) ℚ)) =
      -1 :=
  ⟨okB_opt (by rw [indefinite_det_eval]; norm_num) 0 ![(1 : ℚ), 0], indefinite_variance_eval⟩

/-- C7 amended: the risk is computed as the square root of the achieved
variance; whenever that variance is nonnegative the risk is its nonnegative
square root (so risk ≥ 0), but no negative-variance failure exists: the
square root is simply taken (producing NaN in the source's floating point). -/
theorem risk_nonneg_sqrt_of_variance {n : ℕ} (t : ℚ) (mu : Fin n → ℚ)
    (cov : Matrix (Fin n) (Fin n) ℚ) (hok : okB (markowitz_opt t mu cov) = true)
    (hv : 0 ≤ variance_of (markowitz_opt t mu cov)) :
    0 ≤ Real.sqrt (variance_of (markowitz_opt t mu cov)) ∧
    Real.sqrt (variance_of (markowitz_opt t mu cov)) ^ 2 =
      ((variance_of (markowitz_opt t mu cov) : ℚ) : ℝ) := by
  refine ⟨Real.sqrt_nonneg _, Real.sq_sqrt ?_⟩
  exact_mod_cast hv

/-- Witness for C7's amended claim at `mu = (1, 2)`, `cov = I₂`, `R = 1`
(achieved variance 1). -/
theorem risk_nonneg_sqrt_of_variance_witness :
    0 ≤ Real.sqrt (variance_of (markowitz_opt 1 ![(1 : ℚ), 2] (1 : Matrix (Fin 2) (Fin 2) ℚ))) :=
  (risk_nonneg_sqrt_of_variance 1 ![(1 : ℚ), 2] 1 (okB_opt (by simp) 1 ![(1 : ℚ), 2])
    (by rw [base_variance_eval]; norm_num)).1

/-- C8 counterexample: a sweep with `k = 1 < 2` and a sweep with
`r_min = 1 > 0 = r_max` both produce portfolios normally; no invalid-range
failure exists in the code. -/
theorem sweep_no_invalid_range_cex :
    okB (sweep ![(1 : ℚ), 2] (1 : Matrix (Fin 2) (Fin 2) ℚ) 0 1 1 0) = true ∧
    okB (sweep ![(1 : ℚ), 2] (1 : Matrix (Fin 2) (Fin 2) ℚ) 1 0 2 0) = true :=
  ⟨okB_opt (by simp) _ _, okB_opt (by simp) _ _⟩

/-- C8 amended: the sweep performs no range validation: for every `r_min`,
`r_max` and `k` (including `k < 2` and `r_min > r_max`) each of the `k` samples
is just `markowitz_opt` at the corresponding `linspace` target, succeeding
whenever `cov` is invertible. -/
theorem sweep_no_range_validation {n : ℕ} (mu : Fin n → ℚ)
    (cov : Matrix (Fin n) (Fin n) ℚ) (lo hi : ℚ) (k : ℕ) (h : cov.det ≠ 0) :
    ∀ i : Fin k,
      sweep mu cov lo hi k i = markowitz_opt (frontier_returns lo hi k i) mu cov ∧
      okB (sweep mu cov lo hi k i) = true :=
  fun i => ⟨rfl, okB_opt h _ _⟩

/-- Witness for C8's amended claim with the invalid range `r_min = 1 > 0 =
r_max` and `k = 1`. -/
theorem sweep_no_range_validation_witness :
    sweep ![(1 : ℚ), 2] (1 : Matrix (Fin 2) (Fin 2) ℚ) 1 0 1 0 =
      markowitz_opt (frontier_returns 1 0 1 0) ![(1 : ℚ), 2] 1 ∧
    okB (sweep ![(1 : ℚ), 2] (1 : Matrix (Fin 2) (Fin 2) ℚ) 1 0 1 0) = true :=
  sweep_no_range_validation ![(1 : ℚ), 2] 1 1 0 1 (by simp) 0

/-- C5: for a valid market model and `k ≥ 2` samples, the sweep yields one
portfolio per index `i : Fin k` (hence exactly `k`), the `i`-th solved at target
`r_min + i·(r_max−r_min)/(k−1)` in ascending index order; the first achieved
return is `r_min`, the last is `r_max`, and for `r_min < r_max` the achieved
returns are strictly increasing. -/
theorem sweep_ascending_targets {n : ℕ} (mu : Fin n → ℚ) (cov : Matrix (Fin n) (Fin n) ℚ)
    (lo hi : ℚ) (k : ℕ) (hpd : SymPD cov) (hD : D mu cov ≠ 0) (hk : 2 ≤ k) :
    (∀ i : Fin k,
      sweep mu cov lo hi k i = markowitz_opt (frontier_returns lo hi k i) mu cov ∧
      okB (sweep mu cov lo hi k i) = true ∧
      return_of (sweep mu cov lo hi k i) = frontier_returns lo hi k i) ∧
    return_of (sweep mu cov lo hi k ⟨0, by omega⟩) = lo ∧
    return_of (sweep mu cov lo hi k ⟨k - 1, by omega⟩) = hi ∧
    (lo < hi → StrictMono fun i : Fin k => return_of (sweep mu cov lo hi k i)) := by
  have hdet := det_ne_zero_of_sympd hpd
  have hre : ∀ i : Fin k, return_of (sweep mu cov lo hi k i) = frontier_returns lo hi k i :=
    fun i => return_of_eq_target hpd.1 hdet hD _
  have hk2 : (2 : ℚ) ≤ (k : ℚ) := by exact_mod_cast hk
  have hk1 : ((k : ℚ) - 1) ≠ 0 := by intro h0; linarith
  refine ⟨fun i => ⟨rfl, okB_opt hdet _ _, hre i⟩, ?_, ?_, ?_⟩
  · rw [hre]
    simp [frontier_returns]
  · rw [hre]
    have hcast : (((k - 1 : ℕ) : ℚ)) = (k : ℚ) - 1 := by
      have h1 : 1 ≤ k := by omega
      push_cast [Nat.cast_sub h1]
      ring
    show lo + (((k - 1 : ℕ) : ℚ)) * ((hi - lo) / ((k : ℚ) - 1)) = hi
    rw [hcast, mul_comm, div_mul_cancel₀ _ hk1]
    ring
  · intro hlh i j hij
    simp only [hre]
    show lo + (i : ℚ) * ((hi - lo) / ((k : ℚ) - 1)) < lo + (j : ℚ) * ((hi - lo) / ((k : ℚ) - 1))
    have hstep : 0 < (hi - lo) / ((k : ℚ) - 1) :=
      div_pos (sub_pos.mpr hlh) (by linarith)
    have hcast : (i : ℚ) < (j : ℚ) := by exact_mod_cast (Fin.lt_def.mp hij)
    exact add_lt_add_left (mul_lt_mul_of_pos_right hcast hstep) lo

/-- Witness for C5: sweeping `[0, 1]` with `k = 2` samples at `mu = (1, 2)`,
`cov = I₂`: the first achieved return is 0 and the last is 1. -/
theorem sweep_ascending_targets_witness :
    return_of (sweep ![(1 : ℚ), 2] (1 : Matrix (Fin 2) (Fin 2) ℚ) 0 1 2 ⟨0, by omega⟩) = 0 ∧
    return_of (sweep ![(1 : ℚ), 2] (1 : Matrix (Fin 2) (Fin 2) ℚ) 0 1 2 ⟨2 - 1, by omega⟩) = 1 :=
  ⟨(sweep_ascending_targets ![(1 : ℚ), 2] 1 0 1 2 sympd_one base_D_ne_zero (by omega)).2.1,
   (sweep_ascending_targets ![(1 : ℚ), 2] 1 0 1 2 sympd_one base_D_ne_zero (by omega)).2.2.1⟩

/-- C9: the redesigned core that computes `inv_cov, A, B, C, D` once per market
model and reuses them (the cached `Solve` and `Sweep`) returns, for every
target, exactly the same result as the source's `markowitz_opt`, which
recomputes them on every call: caching is an equivalence-preserving
optimization. -/
theorem cached_model_equivalent {n : ℕ} (mu : Fin n → ℚ) (cov : Matrix (Fin n) (Fin n) ℚ)
    (t lo hi : ℚ) (k : ℕ) :
    solveCached (mkModel mu cov) t = markowitz_opt t mu cov ∧
    ∀ i : Fin k, sweepCached (mkModel mu cov) lo hi k i = sweep mu cov lo hi k i :=
  ⟨rfl, fun _ => rfl⟩

/-- C10: for every valid market model and target `R`, the achieved variance
equals the closed form `(A·R² − 2·B·R + C)/D`, a quadratic in the target that
is minimized at `R = B/A` (the global minimum-variance portfolio) — which is
why risk along a swept frontier is not monotone in the target. -/
theorem variance_quadratic_minimized_at_gmv {n : ℕ} (t : ℚ) (mu : Fin n → ℚ)
    (cov : Matrix (Fin n) (Fin n) ℚ) (hpd : SymPD cov) (hD : D mu cov ≠ 0) :
    variance_of (markowitz_opt t mu cov) =
      (A mu cov * t ^ 2 - 2 * B mu cov * t + C mu cov) / D mu cov ∧
    ∀ s : ℚ, variance_of (markowitz_opt (B mu cov / A mu cov) mu cov) ≤
      variance_of (markowitz_opt s mu cov) := by
  have hdet := det_ne_zero_of_sympd hpd
  have hform : ∀ s : ℚ, variance_of (markowitz_opt s mu cov) =
      (A mu cov * s ^ 2 - 2 * B mu cov * s + C mu cov) / D mu cov := fun s => by
    rw [variance_of_opt hdet, variance_formula hdet hpd.1 hD]
  refine ⟨hform t, fun s => ?_⟩
  rw [hform, hform]
  have hA := A_pos mu hpd (dim_ne_zero_of_D hD)
  have hDp := D_pos hpd hD
  rw [div_le_div_iff_of_pos_right hDp]
  have key : A mu cov * (B mu cov / A mu cov) ^ 2 - 2 * B mu cov * (B mu cov / A mu cov) +
      C mu cov = C mu cov - B mu cov ^ 2 / A mu cov := by
    field_simp
    ring
  have h2 : A mu cov * s ^ 2 - 2 * B mu cov * s + B mu cov ^ 2 / A mu cov =
      (A mu cov * s - B mu cov) ^ 2 / A mu cov := by
    field_simp
    ring
  have h3 : 0 ≤ (A mu cov * s - B mu cov) ^ 2 / A mu cov :=
    div_nonneg (sq_nonneg _) hA.le
  linarith

/-- Witness for C10 at `mu = (1, 2)`, `cov = I₂`, `R = 1`: the closed-form
variance identity. -/
theorem variance_quadratic_minimized_at_gmv_witness :
    variance_of (markowitz_opt 1 ![(1 : ℚ), 2] (1 : Matrix (Fin 2) (Fin 2) ℚ)) =
      (A ![(1 : ℚ), 2] 1 * 1 ^ 2 - 2 * B ![(1 : ℚ), 2] 1 * 1 + C ![(1 : ℚ), 2] 1) /
        D ![(1 : ℚ), 2] 1 :=
  (variance_quadratic_minimized_at_gmv 1 ![(1 : ℚ), 2] 1 sympd_one base_D_ne_zero).1

end Markowitz
